import Mathlib

/-!
# Verification of the rules_hdl dependency-packaging pipeline

Shallow embedding of the three scripts
`scan_submodule_tools.py`, `package_tools.py` and `generate_release_notes.py`.

Strings are modelled as `List Char`, file contents as `List Nat` (bytes).
The Python regular expressions used by the scanner are embedded as
specialized deterministic matchers that reproduce the greedy/backtracking
semantics of the concrete patterns on the inputs considered.
-/

/-! ## Character classes

`\s` in Python matches space, tab, newline, carriage return, vertical tab
and form feed. -/

def isPySpace (ch : Char) : Bool :=
  ch == ' ' || ch == '\t' || ch == '\n' || ch == '\r' ||
  ch == Char.ofNat 11 || ch == Char.ofNat 12

/-- Characters that may appear in an attribute value without interfering
with the surrounding pattern: not a quote, not a closing parenthesis,
not an equals sign, not whitespace. -/
def safeChar (ch : Char) : Bool :=
  !(ch == '"') && !(ch == ')') && !(ch == '=') && !(isPySpace ch)

/-! ## Primitive matchers

Building blocks for the pattern
`git_override\s*\(\s*module_name\s*=\s*"([^"]+)"[^)]*commit\s*=\s*"([^"]+)"[^)]*remote\s*=\s*"([^"]+)"`
from `parse_git_overrides` (scan_submodule_tools.py, line 19). -/

/-- Consume a literal string; `none` on mismatch. -/
def dropLit : List Char → List Char → Option (List Char)
  | [], s => some s
  | _ :: _, [] => none
  | a :: as, ch :: s => if ch = a then dropLit as s else none

/-- Consume `\s*`. -/
def dropWs (s : List Char) : List Char := s.dropWhile isPySpace

/-- Consume `"([^"]+)"`: a quote, a greedy nonempty run of non-quote
characters (the capture), a closing quote. -/
def quoted : List Char → Option (List Char × List Char)
  | '"' :: rest =>
    match rest.dropWhile (fun ch => ch != '"') with
    | '"' :: after =>
      let cap := rest.takeWhile (fun ch => ch != '"')
      if cap = [] then none else some (cap, after)
    | _ => none
  | _ => none

/-- Consume `key\s*=\s*"([^"]+)"` at the current position. -/
def keyValAt (key : List Char) (s : List Char) : Option (List Char × List Char) :=
  match dropLit key s with
  | none => none
  | some s₁ =>
    match dropLit ['='] (dropWs s₁) with
    | none => none
    | some s₂ => quoted (dropWs s₂)

/-- Greedy `[^)]*` followed by a continuation `p`: try the latest possible
start position for `p` first (the run of non-`)` characters is maximal),
backtracking towards earlier positions.  The run may not cross a `)`. -/
def seekLast {α : Type} (p : List Char → Option α) : List Char → Option α
  | [] => p []
  | ch :: rest =>
    if ch = ')' then p (ch :: rest)
    else
      match seekLast p rest with
      | some v => some v
      | none => p (ch :: rest)

/-! ## The git_override pattern -/

/-- A raw regex match of the three captured attributes, with the rest of
the input after the match. -/
abbrev OverrideMatch := (List Char × List Char × List Char) × List Char

/-- Tail of the pattern: `remote\s*=\s*"([^"]+)"`. -/
def remoteCont (m c : List Char) (u : List Char) : Option OverrideMatch :=
  match keyValAt "remote".toList u with
  | none => none
  | some (r, u₂) => some ((m, c, r), u₂)

/-- Middle of the pattern: `commit\s*=\s*"([^"]+)"[^)]*remote...`. -/
def commitCont (m : List Char) (t : List Char) : Option OverrideMatch :=
  match keyValAt "commit".toList t with
  | none => none
  | some (c, t₂) => seekLast (remoteCont m c) t₂

/-- Match the full `git_override` pattern at the current position. -/
def matchGitOverrideAt (s : List Char) : Option OverrideMatch :=
  match dropLit "git_override".toList s with
  | none => none
  | some s₁ =>
    match dropLit ['('] (dropWs s₁) with
    | none => none
    | some s₂ =>
      match keyValAt "module_name".toList (dropWs s₂) with
      | none => none
      | some (m, s₃) => seekLast (commitCont m) s₃

/-- `re.findall`: scan left to right; at a match, emit the captures and
resume after the match; otherwise advance one character.  Fuelled to make
the recursion structural; `s.length` fuel always suffices because each
step consumes at least one character. -/
def findAllGitOverrides : Nat → List Char → List (List Char × List Char × List Char)
  | 0, _ => []
  | _, [] => []
  | fuel + 1, ch :: rest =>
    match matchGitOverrideAt (ch :: rest) with
    | some (t, after) => t :: findAllGitOverrides fuel after
    | none => findAllGitOverrides fuel rest

def findAllTriples (s : List Char) : List (List Char × List Char × List Char) :=
  findAllGitOverrides s.length s

/-! ## The repository-URL pattern

`github\.com[:/]([^/]+)/([^/\.]+)`, applied with `re.search`
(scan_submodule_tools.py, line 25). -/

/-- Match `github\.com[:/]([^/]+)/([^/\.]+)` at the current position,
returning (owner, repo). -/
def matchRepoAt (s : List Char) : Option (List Char × List Char) :=
  match dropLit "github.com".toList s with
  | none => none
  | some s₁ =>
    match s₁ with
    | [] => none
    | sep :: s₂ =>
      if sep = ':' ∨ sep = '/' then
        let ow := s₂.takeWhile (fun ch => ch != '/')
        match s₂.dropWhile (fun ch => ch != '/') with
        | '/' :: s₃ =>
          if ow = [] then none
          else
            let rp := s₃.takeWhile (fun ch => ch != '/' && ch != '.')
            if rp = [] then none else some (ow, rp)
        | _ => none
      else none

/-- `re.search`: first position (left to right) where the pattern matches. -/
def searchRepo : List Char → Option (List Char × List Char)
  | [] => none
  | ch :: rest =>
    match matchRepoAt (ch :: rest) with
    | some v => some v
    | none => searchRepo rest

/-! ## DependencyRef -/

/-- One parsed `git_override` declaration (a dict in the source). -/
structure Tool where
  module_name : List Char
  commit : List Char
  remote : List Char
  owner : List Char
  repo : List Char
  deriving DecidableEq, Repr

/-- `parse_git_overrides`: run the declaration regex over the manifest,
then for each match extract owner/repo from the remote URL; matches whose
remote does not contain the GitHub pattern are dropped. -/
def parseGitOverrides (content : List Char) : List Tool :=
  (findAllTriples content).filterMap fun tr =>
    match searchRepo tr.2.2 with
    | some owrp => some ⟨tr.1, tr.2.1, tr.2.2, owrp.1, owrp.2⟩
    | none => none

/-! ## SHA-256 and base64

`calculate_integrity` (package_tools.py, lines 56-65) computes
`"sha256-" + base64(sha256(file bytes))` using `hashlib.sha256` and
`base64.b64encode`.  Both library functions are embedded as their
standard algorithms (FIPS 180-4 and RFC 4648), over byte lists. -/

/-- Truncate to a 32-bit word. -/
def w32 (n : Nat) : Nat := n % 4294967296

def rotr32 (n x : Nat) : Nat := w32 ((x >>> n) ||| (x <<< (32 - n)))

def bigSigma0 (x : Nat) : Nat := rotr32 2 x ^^^ rotr32 13 x ^^^ rotr32 22 x
def bigSigma1 (x : Nat) : Nat := rotr32 6 x ^^^ rotr32 11 x ^^^ rotr32 25 x
def smallSigma0 (x : Nat) : Nat := rotr32 7 x ^^^ rotr32 18 x ^^^ (x >>> 3)
def smallSigma1 (x : Nat) : Nat := rotr32 17 x ^^^ rotr32 19 x ^^^ (x >>> 10)

def chCh (x y z : Nat) : Nat := (x &&& y) ^^^ ((0xffffffff ^^^ x) &&& z)
def majMaj (x y z : Nat) : Nat := (x &&& y) ^^^ (x &&& z) ^^^ (y &&& z)

/-- The 64 SHA-256 round constants (FIPS 180-4 §4.2.2, in decimal). -/
def sha256K : List Nat :=
  [1116352408, 1899447441, 3049323471, 3921009573, 961987163, 1508970993,
   2453635748, 2870763221, 3624381080, 310598401, 607225278, 1426881987,
   1925078388, 2162078206, 2614888103, 3248222580, 3835390401, 4022224774,
   264347078, 604807628, 770255983, 1249150122, 1555081692, 1996064986,
   2554220882, 2821834349, 2952996808, 3210313671, 3336571891, 3584528711,
   113926993, 338241895, 666307205, 773529912, 1294757372, 1396182291,
   1695183700, 1986661051, 2177026350, 2456956037, 2730485921, 2820302411,
   3259730800, 3345764771, 3516065817, 3600352804, 4094571909, 275423344,
   430227734, 506948616, 659060556, 883997877, 958139571, 1322822218,
   1537002063, 1747873779, 1955562222, 2024104815, 2227730452, 2361852424,
   2428436474, 2756734187, 3204031479, 3329325298]

/-- Working state: eight 32-bit words. -/
structure Hash8 where
  a : Nat
  b : Nat
  c : Nat
  d : Nat
  e : Nat
  f : Nat
  g : Nat
  hh : Nat
  deriving DecidableEq, Repr

/-- The eight SHA-256 initial hash values (FIPS 180-4 §5.3.3, in decimal). -/
def sha256Init : Hash8 :=
  ⟨1779033703, 3144134277, 1013904242, 2773480762,
   1359893119, 2600822924, 528734635, 1541459225⟩

/-- Big-endian bytes to 32-bit words, four at a time. -/
def toWordsBE : List Nat → List Nat
  | b0 :: b1 :: b2 :: b3 :: rest =>
    ((b0 <<< 24) ||| (b1 <<< 16) ||| (b2 <<< 8) ||| b3) :: toWordsBE rest
  | _ => []

/-- Extend the 16 block words to the 64-entry message schedule
(`n` further entries to append). -/
def extendSchedule : Nat → List Nat → List Nat
  | 0, w => w
  | n + 1, w =>
    let i := w.length
    let next := w32 (smallSigma1 (w.getD (i - 2) 0) + w.getD (i - 7) 0 +
                     smallSigma0 (w.getD (i - 15) 0) + w.getD (i - 16) 0)
    extendSchedule n (w ++ [next])

def compressStep (st : Hash8) (ki wi : Nat) : Hash8 :=
  let t1 := w32 (st.hh + bigSigma1 st.e + chCh st.e st.f st.g + ki + wi)
  let t2 := w32 (bigSigma0 st.a + majMaj st.a st.b st.c)
  ⟨w32 (t1 + t2), st.a, st.b, st.c, w32 (st.d + t1), st.e, st.f, st.g⟩

/-- Process one 64-byte block. -/
def compressBlock (st : Hash8) (block : List Nat) : Hash8 :=
  let ws := extendSchedule 48 (toWordsBE block)
  let t := (sha256K.zip ws).foldl (fun s kw => compressStep s kw.1 kw.2) st
  ⟨w32 (st.a + t.a), w32 (st.b + t.b), w32 (st.c + t.c), w32 (st.d + t.d),
   w32 (st.e + t.e), w32 (st.f + t.f), w32 (st.g + t.g), w32 (st.hh + t.hh)⟩

/-- Split into chunks of `size` bytes (fuelled; with fuel at least the
list length and positive `size` this is exact chunking). -/
def chunksF (size : Nat) : Nat → List Nat → List (List Nat)
  | _, [] => []
  | 0, l => [l]
  | fuel + 1, x :: xs => (x :: xs).take size :: chunksF size fuel ((x :: xs).drop size)

/-- Big-endian 8-byte encoding of the message bit length. -/
def lenBytes64 (bitLen : Nat) : List Nat :=
  [(bitLen >>> 56) &&& 255, (bitLen >>> 48) &&& 255, (bitLen >>> 40) &&& 255,
   (bitLen >>> 32) &&& 255, (bitLen >>> 24) &&& 255, (bitLen >>> 16) &&& 255,
   (bitLen >>> 8) &&& 255, bitLen &&& 255]

/-- SHA-256 padding: `0x80`, zeros to 56 mod 64, 8-byte bit length. -/
def sha256Pad (msg : List Nat) : List Nat :=
  let padZeros := (119 - msg.length % 64) % 64
  msg ++ 128 :: List.replicate padZeros 0 ++ lenBytes64 (8 * msg.length)

/-- One 32-bit word to four big-endian bytes. -/
def wordBytesBE (x : Nat) : List Nat :=
  [(x >>> 24) &&& 255, (x >>> 16) &&& 255, (x >>> 8) &&& 255, x &&& 255]

def digestBytes (st : Hash8) : List Nat :=
  wordBytesBE st.a ++ wordBytesBE st.b ++ wordBytesBE st.c ++ wordBytesBE st.d ++
  wordBytesBE st.e ++ wordBytesBE st.f ++ wordBytesBE st.g ++ wordBytesBE st.hh

/-- SHA-256 of a byte list: the raw 32-byte digest. -/
def sha256 (msg : List Nat) : List Nat :=
  let padded := sha256Pad msg
  digestBytes ((chunksF 64 padded.length padded).foldl compressBlock sha256Init)

/-- RFC 4648 base64 alphabet. -/
def b64Alphabet : List Char :=
  "ABCDEFGHIJKLMNOPQRSTUVWXYZabcdefghijklmnopqrstuvwxyz0123456789+/".toList

def b64Char (n : Nat) : Char := b64Alphabet.getD n 'A'

/-- Standard base64 encoding with `=` padding. -/
def base64Encode : List Nat → List Char
  | [] => []
  | [b0] => [b64Char (b0 >>> 2), b64Char ((b0 &&& 3) <<< 4), '=', '=']
  | [b0, b1] => [b64Char (b0 >>> 2), b64Char (((b0 &&& 3) <<< 4) ||| (b1 >>> 4)),
                 b64Char ((b1 &&& 15) <<< 2), '=']
  | b0 :: b1 :: b2 :: rest =>
    b64Char (b0 >>> 2) :: b64Char (((b0 &&& 3) <<< 4) ||| (b1 >>> 4)) ::
    b64Char (((b1 &&& 15) <<< 2) ||| (b2 >>> 6)) :: b64Char (b2 &&& 63) ::
    base64Encode rest

/-- `calculate_integrity`: the tarball is read in 8192-byte chunks, each
fed to the incremental hash (hashing the concatenation of the chunks);
the raw digest is base64-encoded and prefixed with `sha256-`. -/
def calculate_integrity (data : List Nat) : List Char :=
  let digest := sha256 ((chunksF 8192 data.length data).flatten)
  "sha256-".toList ++ base64Encode digest

/-! ## Probe and classification

`check_submodules` (scan_submodule_tools.py, lines 39-50) runs
`curl -sf` on the raw `.gitmodules` URL with a 10 second timeout inside a
`try`: a completed process with return code 0 means the marker file is
present; any raised exception (timeout, network error, ...) is caught by
the bare `except` and mapped to `False`. -/

/-- Outcome of the external probe process. -/
inductive ProbeResult where
  | completed (returncode : Int)
  | raised
  deriving DecidableEq, Repr

def gitmodulesUrl (owner repo commit : List Char) : List Char :=
  "https://raw.githubusercontent.com/".toList ++ owner ++ "/".toList ++ repo ++
  "/".toList ++ commit ++ "/.gitmodules".toList

/-- `check_submodules`, as a function of the probe outcome. -/
def check_submodules (res : ProbeResult) : Bool :=
  match res with
  | .completed rc => rc == 0
  | .raised => false

/-- The classification loop of the scanner `main`
(scan_submodule_tools.py, lines 58-65): each tool is appended to the
with-submodules or without-submodules list in input order. -/
def classifyTools (probeOf : Tool → ProbeResult) : List Tool → List Tool × List Tool
  | [] => ([], [])
  | t :: ts =>
    let rest := classifyTools probeOf ts
    if check_submodules (probeOf t) then (t :: rest.1, rest.2)
    else (rest.1, t :: rest.2)

/-! ## Packaging one tool

`package_tool` (package_tools.py, lines 89-137).  The filesystem and
subprocess effects are recorded as a trace; the possible failure points
(clone/checkout/submodule update, rename, tar) are a parameter.  The
`finally` block removes the per-module temp directory on every path. -/

structure PackageEntry where
  module_name : List Char
  tarball_name : List Char
  integrity : List Char
  commit : List Char
  strip_prefix : List Char
  deriving DecidableEq, Repr

structure IntegrityRecord where
  module_name : List Char
  owner : List Char
  repo : List Char
  commit : List Char
  integrity : List Char
  deriving DecidableEq, Repr

/-- External effects performed by the packager. -/
inductive Eff where
  | mkTemp (dir : List Char)
  | cloneRepo (url : List Char)
  | renameDir (src dst : List Char)
  | writeTarball (name : List Char)
  | writeIntegrityFile (name : List Char)
  | download (url : List Char)
  | unlinkTmp
  | rmTemp (dir : List Char)
  deriving DecidableEq, Repr

/-- Steps of the with-submodules path that can raise. -/
inductive PkgStep where
  | cloneStep
  | renameStep
  | tarStep
  deriving DecidableEq, Repr

def tempDirOf (moduleName : List Char) : List Char :=
  "/tmp/package_".toList ++ moduleName

def cloneUrlOf (owner repo : List Char) : List Char :=
  "https://github.com/".toList ++ owner ++ "/".toList ++ repo ++ ".git".toList

/-- `package_tool`: returns the manifest entry (or `none` if the attempt
raised at `failAt`) together with the trace of effects.  `tarBytes` is
the byte content of the tarball the `tar` subprocess produced. -/
def package_tool (tool : Tool) (tagName : List Char) (failAt : Option PkgStep)
    (tarBytes : List Nat) : Option PackageEntry × List Eff :=
  let temp := tempDirOf tool.module_name
  let target := tool.repo ++ "-".toList ++ tool.commit
  let tarName := tool.module_name ++ "-".toList ++ tagName ++ ".tar.gz".toList
  match failAt with
  | some .cloneStep =>
    (none, [Eff.mkTemp temp, Eff.cloneRepo (cloneUrlOf tool.owner tool.repo),
            Eff.rmTemp temp])
  | some .renameStep =>
    (none, [Eff.mkTemp temp, Eff.cloneRepo (cloneUrlOf tool.owner tool.repo),
            Eff.renameDir (temp ++ "/".toList ++ tool.repo) (temp ++ "/".toList ++ target),
            Eff.rmTemp temp])
  | some .tarStep =>
    (none, [Eff.mkTemp temp, Eff.cloneRepo (cloneUrlOf tool.owner tool.repo),
            Eff.renameDir (temp ++ "/".toList ++ tool.repo) (temp ++ "/".toList ++ target),
            Eff.writeTarball tarName, Eff.rmTemp temp])
  | none =>
    (some ⟨tool.module_name, tarName, calculate_integrity tarBytes, tool.commit, target⟩,
     [Eff.mkTemp temp, Eff.cloneRepo (cloneUrlOf tool.owner tool.repo),
      Eff.renameDir (temp ++ "/".toList ++ tool.repo) (temp ++ "/".toList ++ target),
      Eff.writeTarball tarName, Eff.writeIntegrityFile (tarName ++ ".sha256".toList),
      Eff.rmTemp temp])

/-! ## The without-submodules path -/

/-- The GitHub source archive URL used by
`calculate_github_archive_integrity` (package_tools.py, line 72). -/
def archiveUrl (owner repo commit : List Char) : List Char :=
  "https://github.com/".toList ++ owner ++ "/".toList ++ repo ++
  "/archive/".toList ++ commit ++ ".tar.gz".toList

/-- `calculate_github_archive_integrity`: download the archive to a temp
file, hash it with `calculate_integrity`, delete the temp file in the
`finally` block.  `fetch` maps a URL to the downloaded bytes. -/
def calculate_github_archive_integrity (fetch : List Char → List Nat)
    (owner repo commit : List Char) : List Char × List Eff :=
  let url := archiveUrl owner repo commit
  (calculate_integrity (fetch url), [Eff.download url, Eff.unlinkTmp])

/-! ## The batch loops of the packager `main`

(package_tools.py, lines 156-185): each item runs inside `try/except`;
a success appends to the output list, a failure is logged and skipped. -/

def runPackageBatch (pkg : Tool → Except (List Char) PackageEntry) :
    List Tool → List PackageEntry
  | [] => []
  | t :: ts =>
    match pkg t with
    | .ok e => e :: runPackageBatch pkg ts
    | .error _ => runPackageBatch pkg ts

def runIntegrityBatch (calcOf : Tool → Except (List Char) (List Char)) :
    List Tool → List IntegrityRecord
  | [] => []
  | t :: ts =>
    match calcOf t with
    | .ok i => ⟨t.module_name, t.owner, t.repo, t.commit, i⟩ :: runIntegrityBatch calcOf ts
    | .error _ => runIntegrityBatch calcOf ts

/-! ## Report generation

The with-submodules section of `generate_release_notes.py`
(lines 83-96) renders a ready-to-use `archive_override` block for a tool
iff its module name is a key of the lookup dict built from
`packages.json`. -/

/-- The module names for which a ready-to-use with-submodules block is
rendered, in report order. -/
def withNestedReadyBlocks (withTools : List Tool) (packages : List PackageEntry) :
    List (List Char) :=
  withTools.filterMap fun t =>
    if packages.any (fun p => p.module_name == t.module_name) then some t.module_name
    else none

/-! ## General helper lemmas -/

set_option maxRecDepth 400000

theorem chunksF_flatten (size : Nat) : ∀ fuel l, (chunksF size fuel l).flatten = l := by
  intro fuel
  induction fuel with
  | zero => intro l; cases l <;> simp [chunksF]
  | succ n ih => intro l; cases l <;> simp [chunksF, ih]

theorem digestBytes_length (st : Hash8) : (digestBytes st).length = 32 := by
  simp [digestBytes, wordBytesBE]

/-- FIPS 180-4 test vector: SHA-256 of the empty message. -/
theorem sha256_vector_empty :
    sha256 [] = [227, 176, 196, 66, 152, 252, 28, 20, 154, 251, 244, 200, 153, 111,
      185, 36, 39, 174, 65, 228, 100, 155, 147, 76, 164, 149, 153, 27, 120, 82, 184, 85] := by
  decide

/-- FIPS 180-4 test vector: SHA-256 of the ASCII bytes of `abc`. -/
theorem sha256_vector_abc :
    sha256 [97, 98, 99] = [186, 120, 22, 191, 143, 1, 207, 234, 65, 65, 64, 222, 93,
      174, 34, 35, 176, 3, 97, 163, 150, 23, 122, 156, 180, 16, 255, 97, 242, 0, 21, 173] := by
  decide

/-- RFC 4648 test vector: base64 of the ASCII bytes of `Man`. -/
theorem base64_vector_man : base64Encode [77, 97, 110] = "TWFu".toList := by
  decide

/-- The integrity string of an empty tarball, matching
`printf '' | sha256sum`, raw-decoded and base64-encoded. -/
theorem calculate_integrity_empty :
    calculate_integrity [] =
      "sha256-47DEQpj8HBSa+/TImW+5JCeuQeRkm5NMpJWZG3hSuFU=".toList := by
  decide

theorem takeWhile_all_append (p : Char → Bool) (l t : List Char)
    (h : ∀ ch ∈ l, p ch = true) :
    (l ++ t).takeWhile p = l ++ t.takeWhile p := by
  induction l with
  | nil => simp
  | cons x xs ih =>
    have hx := h x (by simp)
    simp only [List.cons_append, List.takeWhile_cons, hx, if_true]
    simp [ih fun ch hch => h ch (by simp [hch])]

theorem dropWhile_all_append (p : Char → Bool) (l t : List Char)
    (h : ∀ ch ∈ l, p ch = true) :
    (l ++ t).dropWhile p = t.dropWhile p := by
  induction l with
  | nil => simp
  | cons x xs ih =>
    have hx := h x (by simp)
    simp only [List.cons_append, List.dropWhile_cons, hx, if_true]
    exact ih fun ch hch => h ch (by simp [hch])

theorem takeWhile_cons_neg (p : Char → Bool) (x : Char) (t : List Char)
    (h : p x = false) : (x :: t).takeWhile p = [] := by
  simp [List.takeWhile_cons, h]

theorem dropWhile_cons_neg (p : Char → Bool) (x : Char) (t : List Char)
    (h : p x = false) : (x :: t).dropWhile p = x :: t := by
  simp [List.dropWhile_cons, h]

/-! ## Claim C1 -/

/-- C1: for every byte sequence given to `calculate_integrity`, the result
is the literal `sha256-` followed by the standard base64 encoding of the
raw 32-byte SHA-256 digest of exactly the input bytes (the chunked read
loop hashes the concatenation of the chunks, which is the input). -/
theorem c1_integrity_encoding (data : List Nat) :
    calculate_integrity data = "sha256-".toList ++ base64Encode (sha256 data) ∧
    (sha256 data).length = 32 := by
  constructor
  · simp [calculate_integrity, chunksF_flatten]
  · simp [sha256, digestBytes_length]

/-! ## Claim C6 -/

theorem classifyTools_length (probeOf : Tool → ProbeResult) (ts : List Tool) :
    (classifyTools probeOf ts).1.length + (classifyTools probeOf ts).2.length = ts.length := by
  induction ts with
  | nil => simp [classifyTools]
  | cons t ts ih =>
    simp only [classifyTools]
    cases check_submodules (probeOf t) <;> simp <;> omega

theorem classifyTools_mem (probeOf : Tool → ProbeResult) (ts : List Tool)
    (t : Tool) (ht : t ∈ ts) :
    t ∈ (classifyTools probeOf ts).1 ∨ t ∈ (classifyTools probeOf ts).2 := by
  induction ts with
  | nil => simp at ht
  | cons u us ih =>
    simp only [classifyTools]
    rcases List.mem_cons.mp ht with h | h
    · subst h
      cases check_submodules (probeOf t) <;> simp
    · rcases ih h with h' | h' <;> cases check_submodules (probeOf u) <;> simp [h']

/-- C6: the probe-backed classification is total: a raised probe process
is classified as absent (`false`), a completed one is present exactly
when its return code is 0, and every dependency in the batch lands in
exactly one of the two output lists (one unreachable dependency never
blocks classification of the rest). -/
theorem c6_probe_failure_absent :
    check_submodules ProbeResult.raised = false ∧
    (∀ rc : Int, check_submodules (ProbeResult.completed rc) = (rc == 0)) ∧
    (∀ probeOf ts,
      (classifyTools probeOf ts).1.length + (classifyTools probeOf ts).2.length = ts.length ∧
      ∀ t ∈ ts, t ∈ (classifyTools probeOf ts).1 ∨ t ∈ (classifyTools probeOf ts).2) := by
  refine ⟨rfl, fun rc => rfl, fun probeOf ts => ⟨classifyTools_length probeOf ts, ?_⟩⟩
  exact fun t ht => classifyTools_mem probeOf ts t ht

/-! ## Claim C7 -/

/-- C7: `package_tool` removes the per-module temporary workspace as its
final effect on every path, whether the attempt succeeds (`failAt = none`)
or raises at the clone, rename or tar step. -/
theorem c7_cleanup_unconditional (tool : Tool) (tagName : List Char)
    (failAt : Option PkgStep) (tarBytes : List Nat) :
    ((package_tool tool tagName failAt tarBytes).2).getLast? =
      some (Eff.rmTemp (tempDirOf tool.module_name)) := by
  cases failAt with
  | none => rfl
  | some s => cases s <;> rfl

/-! ## Claim C4 -/

/-- C4: every successfully produced manifest entry has
strip-prefix `{repo}-{commit}` and tarball name `{module_name}-{tag}.tar.gz`. -/
theorem c4_entry_fields (tool : Tool) (tagName : List Char) (failAt : Option PkgStep)
    (tarBytes : List Nat) (e : PackageEntry)
    (he : (package_tool tool tagName failAt tarBytes).1 = some e) :
    PackageEntry.strip_prefix e = tool.repo ++ "-".toList ++ tool.commit ∧
    e.tarball_name = tool.module_name ++ "-".toList ++ tagName ++ ".tar.gz".toList := by
  cases failAt with
  | none =>
    simp only [package_tool] at he
    cases he
    exact ⟨rfl, rfl⟩
  | some s => cases s <;> simp [package_tool] at he

/-- A concrete scanned tool used by witnesses. -/
def fooTool : Tool :=
  ⟨"foo".toList, "abc123".toList, "https://github.com/acme/foo.git".toList,
   "acme".toList, "foo".toList⟩

theorem c4_entry_fields_witness :
    PackageEntry.strip_prefix
        (⟨"foo".toList, "foo-v1.tar.gz".toList,
          "sha256-47DEQpj8HBSa+/TImW+5JCeuQeRkm5NMpJWZG3hSuFU=".toList,
          "abc123".toList, "foo-abc123".toList⟩ : PackageEntry) =
      "foo".toList ++ "-".toList ++ "abc123".toList ∧
    PackageEntry.tarball_name
        (⟨"foo".toList, "foo-v1.tar.gz".toList,
          "sha256-47DEQpj8HBSa+/TImW+5JCeuQeRkm5NMpJWZG3hSuFU=".toList,
          "abc123".toList, "foo-abc123".toList⟩ : PackageEntry) =
      "foo".toList ++ "-".toList ++ "v1".toList ++ ".tar.gz".toList :=
  c4_entry_fields fooTool "v1".toList none [] _ (by decide)

/-! ## Claim C3 -/

theorem runPackageBatch_append (pkg : Tool → Except (List Char) PackageEntry)
    (a b : List Tool) :
    runPackageBatch pkg (a ++ b) = runPackageBatch pkg a ++ runPackageBatch pkg b := by
  induction a with
  | nil => simp [runPackageBatch]
  | cons t ts ih => cases hp : pkg t <;> simp [runPackageBatch, hp, ih]

theorem runPackageBatch_length_ok (pkg : Tool → Except (List Char) PackageEntry)
    (l : List Tool) (h : ∀ t ∈ l, ∃ e, pkg t = .ok e) :
    (runPackageBatch pkg l).length = l.length := by
  induction l with
  | nil => rfl
  | cons t ts ih =>
    obtain ⟨e, he⟩ := h t (by simp)
    simp [runPackageBatch, he, ih fun u hu => h u (by simp [hu])]

theorem mem_runPackageBatch (pkg : Tool → Except (List Char) PackageEntry)
    (l : List Tool) (e : PackageEntry) (h : e ∈ runPackageBatch pkg l) :
    ∃ t ∈ l, pkg t = .ok e := by
  induction l with
  | nil => simp [runPackageBatch] at h
  | cons t ts ih =>
    cases hp : pkg t with
    | ok e' =>
      rw [runPackageBatch, hp] at h
      rcases List.mem_cons.mp h with h' | h'
      · exact ⟨t, by simp, by rw [hp, h']⟩
      · obtain ⟨u, hu, hq⟩ := ih h'
        exact ⟨u, by simp [hu], hq⟩
    | error msg =>
      rw [runPackageBatch, hp] at h
      obtain ⟨u, hu, hq⟩ := ih h
      exact ⟨u, by simp [hu], hq⟩

/-- C3: if packaging fails for exactly one dependency `D` in the batch,
the persisted manifest has exactly N-1 entries, none of them carries D's
module name, D is absent from the report's with-nested ready-to-use
blocks, and the other dependencies' results are exactly what they would
be without D. -/
theorem c3_partial_failure_isolation (pkg : Tool → Except (List Char) PackageEntry)
    (l1 l2 : List Tool) (D : Tool) (err : List Char)
    (hD : pkg D = .error err)
    (hok : ∀ t ∈ l1 ++ l2, ∃ e, pkg t = .ok e ∧ e.module_name = t.module_name)
    (hname : ∀ t ∈ l1 ++ l2, t.module_name ≠ D.module_name) :
    (runPackageBatch pkg (l1 ++ D :: l2)).length = (l1 ++ D :: l2).length - 1 ∧
    (∀ e ∈ runPackageBatch pkg (l1 ++ D :: l2), e.module_name ≠ D.module_name) ∧
    D.module_name ∉
      withNestedReadyBlocks (l1 ++ D :: l2) (runPackageBatch pkg (l1 ++ D :: l2)) ∧
    runPackageBatch pkg (l1 ++ D :: l2) = runPackageBatch pkg (l1 ++ l2) := by
  have hsplit : runPackageBatch pkg (l1 ++ D :: l2) =
      runPackageBatch pkg l1 ++ runPackageBatch pkg l2 := by
    rw [runPackageBatch_append]
    simp [runPackageBatch, hD]
  have hsplit2 : runPackageBatch pkg (l1 ++ l2) =
      runPackageBatch pkg l1 ++ runPackageBatch pkg l2 := runPackageBatch_append pkg l1 l2
  have hlen1 : (runPackageBatch pkg l1).length = l1.length :=
    runPackageBatch_length_ok pkg l1 fun t ht =>
      (hok t (by simp [ht])).imp fun e he => he.1
  have hlen2 : (runPackageBatch pkg l2).length = l2.length :=
    runPackageBatch_length_ok pkg l2 fun t ht =>
      (hok t (by simp [ht])).imp fun e he => he.1
  have hnames : ∀ e ∈ runPackageBatch pkg (l1 ++ D :: l2), e.module_name ≠ D.module_name := by
    intro e he
    rw [hsplit] at he
    rcases List.mem_append.mp he with h | h
    · obtain ⟨t, ht, hq⟩ := mem_runPackageBatch pkg l1 e h
      obtain ⟨e', he', hn⟩ := hok t (by simp [ht])
      rw [hq] at he'
      cases he'
      exact hn ▸ hname t (by simp [ht])
    · obtain ⟨t, ht, hq⟩ := mem_runPackageBatch pkg l2 e h
      obtain ⟨e', he', hn⟩ := hok t (by simp [ht])
      rw [hq] at he'
      cases he'
      exact hn ▸ hname t (by simp [ht])
  refine ⟨?_, hnames, ?_, hsplit.trans hsplit2.symm⟩
  · rw [hsplit]
    simp only [List.length_append, List.length_cons, hlen1, hlen2]
    omega
  · intro hmem
    rw [withNestedReadyBlocks, List.mem_filterMap] at hmem
    obtain ⟨t, ht, hsome⟩ := hmem
    by_cases hc :
        ((runPackageBatch pkg (l1 ++ D :: l2)).any
          (fun p => p.module_name == t.module_name)) = true
    · rw [if_pos hc] at hsome
      obtain ⟨p, hp, hbeq⟩ := List.any_eq_true.mp hc
      have hpt : p.module_name = t.module_name := by simpa using hbeq
      have htD : t.module_name = D.module_name := by
        injection hsome
      exact hnames p hp (hpt.trans htD)
    · rw [if_neg hc] at hsome
      cases hsome

def demoToolA : Tool :=
  ⟨"alpha".toList, "c1".toList, "r1".toList, "o1".toList, "p1".toList⟩

def demoToolB : Tool :=
  ⟨"beta".toList, "c2".toList, "r2".toList, "o2".toList, "p2".toList⟩

def demoPkg : Tool → Except (List Char) PackageEntry := fun t =>
  if t.module_name = "beta".toList then .error "boom".toList
  else .ok ⟨t.module_name, t.module_name, [], t.commit, t.repo⟩

theorem c3_partial_failure_isolation_witness :
    (runPackageBatch demoPkg ([demoToolA] ++ demoToolB :: [])).length =
      ([demoToolA] ++ demoToolB :: []).length - 1 :=
  (c3_partial_failure_isolation demoPkg [demoToolA] [] demoToolB "boom".toList
    rfl
    (fun t ht => by
      simp at ht
      subst ht
      exact ⟨⟨"alpha".toList, "alpha".toList, [], "c1".toList, "p1".toList⟩, rfl, rfl⟩)
    (by decide)).1

/-! ## Claim C5 -/

/-- A manifest with two declarations for the same module name. -/
def c5DupContent : List Char :=
  ("git_override(module_name = \"foo\", commit = \"a1\", remote = \"https://github.com/acme/foo.git\")\n" ++
   "git_override(module_name = \"foo\", commit = \"b2\", remote = \"https://github.com/acme/bar.git\")\n").toList

/-- C5 counterexample: the Scanner performs no deduplication — a manifest
with two `git_override` declarations for module `foo` yields two
DependencyRefs with the same module identifier, so the produced set does
not have unique module identifiers. -/
theorem c5_counterexample :
    (parseGitOverrides c5DupContent).map Tool.module_name =
      ["foo".toList, "foo".toList] ∧
    ¬ ((parseGitOverrides c5DupContent).map Tool.module_name).Nodup := by
  constructor
  · decide
  · decide

theorem parse_names_sublist (content : List Char) :
    ((parseGitOverrides content).map Tool.module_name).Sublist
      ((findAllTriples content).map fun tr => tr.1) := by
  rw [parseGitOverrides]
  generalize findAllTriples content = l
  induction l with
  | nil => simp
  | cons tr l ih =>
    cases h : searchRepo tr.2.2 with
    | none =>
      simp only [List.filterMap_cons, h, List.map_cons]
      exact ih.cons _
    | some owrp =>
      simp only [List.filterMap_cons, h, List.map_cons]
      exact ih.cons₂ _

/-- C5 amended: the Scanner takes module names verbatim from the matched
declarations and drops some matches, so its output names form a
subsequence of the matched declaration names; the module identifiers are
unique whenever the matched declarations' module names are unique — but
the Scanner itself does not enforce uniqueness. -/
theorem c5_amended_unique_when_input_unique (content : List Char)
    (h : ((findAllTriples content).map fun tr => tr.1).Nodup) :
    ((parseGitOverrides content).map Tool.module_name).Nodup :=
  (parse_names_sublist content).nodup h

/-- A manifest whose two declarations have distinct module names. -/
def c5DistinctContent : List Char :=
  ("git_override(module_name = \"foo\", commit = \"a1\", remote = \"https://github.com/acme/foo.git\")\n" ++
   "git_override(module_name = \"bar\", commit = \"b2\", remote = \"https://github.com/acme/bar.git\")\n").toList

theorem c5_amended_witness :
    ((parseGitOverrides c5DistinctContent).map Tool.module_name).Nodup :=
  c5_amended_unique_when_input_unique c5DistinctContent (by decide)

/-! ## Claim C8 -/

/-- The manifest of end-to-end scenario 1. -/
def scenario1Content : List Char :=
  "git_override(\n    module_name = \"foo\",\n    commit = \"abc123\",\n    remote = \"https://github.com/acme/foo.git\",\n)\n".toList

/-- C8: scenario 1 — the declaration for `foo` is parsed to the expected
DependencyRef; with an absent probe result (curl exits nonzero) it is
classified into the without-submodules set; its integrity is computed
over the bytes fetched from
`https://github.com/acme/foo/archive/abc123.tar.gz`, and the temp file
is deleted with no tarball written locally. -/
theorem c8_scenario1_without_nested :
    parseGitOverrides scenario1Content = [fooTool] ∧
    classifyTools (fun _ => ProbeResult.completed 22) (parseGitOverrides scenario1Content) =
      ([], [fooTool]) ∧
    (∀ fetch : List Char → List Nat,
      (calculate_github_archive_integrity fetch fooTool.owner fooTool.repo fooTool.commit).1 =
        calculate_integrity
          (fetch "https://github.com/acme/foo/archive/abc123.tar.gz".toList) ∧
      Eff.unlinkTmp ∈
        (calculate_github_archive_integrity fetch fooTool.owner fooTool.repo fooTool.commit).2 ∧
      ∀ nm, Eff.writeTarball nm ∉
        (calculate_github_archive_integrity fetch fooTool.owner fooTool.repo fooTool.commit).2) := by
  refine ⟨by decide, by decide, fun fetch => ⟨?_, ?_, ?_⟩⟩
  · have harch : archiveUrl fooTool.owner fooTool.repo fooTool.commit =
        "https://github.com/acme/foo/archive/abc123.tar.gz".toList := by decide
    simp [calculate_github_archive_integrity, harch]
  · simp [calculate_github_archive_integrity]
  · intro nm hmem
    simp [calculate_github_archive_integrity] at hmem

/-! ## Claim C9 -/

theorem classifyTools_fst_filter (probeOf : Tool → ProbeResult) (ts : List Tool) :
    (classifyTools probeOf ts).1 = ts.filter fun t => check_submodules (probeOf t) := by
  induction ts with
  | nil => rfl
  | cons t ts ih =>
    simp only [classifyTools, List.filter_cons]
    cases check_submodules (probeOf t) <;> simp [ih]

theorem classifyTools_snd_filter (probeOf : Tool → ProbeResult) (ts : List Tool) :
    (classifyTools probeOf ts).2 = ts.filter fun t => !check_submodules (probeOf t) := by
  induction ts with
  | nil => rfl
  | cons t ts ih =>
    simp only [classifyTools, List.filter_cons]
    cases check_submodules (probeOf t) <;> simp [ih]

theorem runPackageBatch_names_sublist (pkg : Tool → Except (List Char) PackageEntry)
    (l : List Tool) (hn : ∀ t e, pkg t = .ok e → e.module_name = t.module_name) :
    ((runPackageBatch pkg l).map PackageEntry.module_name).Sublist
      (l.map Tool.module_name) := by
  induction l with
  | nil => simp [runPackageBatch]
  | cons t ts ih =>
    cases hp : pkg t with
    | ok e =>
      rw [runPackageBatch, hp]
      simp only [List.map_cons, hn t e hp]
      exact ih.cons₂ _
    | error msg =>
      rw [runPackageBatch, hp]
      simp only [List.map_cons]
      exact ih.cons _

theorem runIntegrityBatch_names_sublist (calcOf : Tool → Except (List Char) (List Char))
    (l : List Tool) :
    ((runIntegrityBatch calcOf l).map IntegrityRecord.module_name).Sublist
      (l.map Tool.module_name) := by
  induction l with
  | nil => simp [runIntegrityBatch]
  | cons t ts ih =>
    cases hp : calcOf t with
    | ok i =>
      rw [runIntegrityBatch, hp]
      simp only [List.map_cons]
      exact ih.cons₂ _
    | error msg =>
      rw [runIntegrityBatch, hp]
      simp only [List.map_cons]
      exact ih.cons _

/-- The packaging loop emits exactly the successful items' entries, in
input order: it is `filterMap` of the per-item result. -/
theorem runPackageBatch_eq_filterMap (pkg : Tool → Except (List Char) PackageEntry)
    (l : List Tool) :
    runPackageBatch pkg l = l.filterMap fun t => (pkg t).toOption := by
  induction l with
  | nil => rfl
  | cons t ts ih =>
    cases hp : pkg t <;> simp [runPackageBatch, hp, ih, Except.toOption]

/-- The integrity loop emits exactly the successful items' records, in
input order: it is `filterMap` of the per-item result. -/
theorem runIntegrityBatch_eq_filterMap (calcOf : Tool → Except (List Char) (List Char))
    (l : List Tool) :
    runIntegrityBatch calcOf l = l.filterMap fun t =>
      match calcOf t with
      | .ok i => some ⟨t.module_name, t.owner, t.repo, t.commit, i⟩
      | .error _ => none := by
  induction l with
  | nil => rfl
  | cons t ts ih =>
    cases hp : calcOf t <;> simp [runIntegrityBatch, hp, ih]

/-- C9: the two classified subsets are the order-preserving filters of the
scanned list by probe outcome, and each final manifest is a complete,
order-stable reflection of which items succeeded: it equals the
`filterMap` of its classification's list by the per-item result (so every
successful item contributes exactly its entry, in input order, and failed
items contribute nothing), every successful item's entry is present,
every entry comes from a successful item, and the module-name lists are
order-stable subsequences of the input order. -/
theorem c9_order_stable_subsequences (probeOf : Tool → ProbeResult) (ts : List Tool)
    (pkg : Tool → Except (List Char) PackageEntry)
    (calcOf : Tool → Except (List Char) (List Char))
    (hn : ∀ t e, pkg t = .ok e → e.module_name = t.module_name) :
    (classifyTools probeOf ts).1 = (ts.filter fun t => check_submodules (probeOf t)) ∧
    (classifyTools probeOf ts).2 = (ts.filter fun t => !check_submodules (probeOf t)) ∧
    runPackageBatch pkg (classifyTools probeOf ts).1 =
      ((classifyTools probeOf ts).1.filterMap fun t => (pkg t).toOption) ∧
    runIntegrityBatch calcOf (classifyTools probeOf ts).2 =
      ((classifyTools probeOf ts).2.filterMap fun t =>
        match calcOf t with
        | .ok i => some ⟨t.module_name, t.owner, t.repo, t.commit, i⟩
        | .error _ => none) ∧
    (∀ t ∈ (classifyTools probeOf ts).1, ∀ e, pkg t = .ok e →
      e ∈ runPackageBatch pkg (classifyTools probeOf ts).1) ∧
    (∀ e ∈ runPackageBatch pkg (classifyTools probeOf ts).1,
      ∃ t ∈ (classifyTools probeOf ts).1, pkg t = .ok e) ∧
    (∀ t ∈ (classifyTools probeOf ts).2, ∀ i, calcOf t = .ok i →
      (⟨t.module_name, t.owner, t.repo, t.commit, i⟩ : IntegrityRecord) ∈
        runIntegrityBatch calcOf (classifyTools probeOf ts).2) ∧
    ((runPackageBatch pkg (classifyTools probeOf ts).1).map PackageEntry.module_name).Sublist
      ((classifyTools probeOf ts).1.map Tool.module_name) ∧
    ((runIntegrityBatch calcOf (classifyTools probeOf ts).2).map IntegrityRecord.module_name).Sublist
      ((classifyTools probeOf ts).2.map Tool.module_name) := by
  refine ⟨classifyTools_fst_filter probeOf ts, classifyTools_snd_filter probeOf ts,
    runPackageBatch_eq_filterMap pkg _, runIntegrityBatch_eq_filterMap calcOf _,
    ?_, ?_, ?_,
    runPackageBatch_names_sublist pkg _ hn, runIntegrityBatch_names_sublist calcOf _⟩
  · intro t ht e he
    rw [runPackageBatch_eq_filterMap]
    exact List.mem_filterMap.mpr ⟨t, ht, by rw [he]; rfl⟩
  · intro e he
    exact mem_runPackageBatch pkg _ e he
  · intro t ht i hi
    rw [runIntegrityBatch_eq_filterMap]
    exact List.mem_filterMap.mpr ⟨t, ht, by rw [hi]⟩

def demoToolC : Tool :=
  ⟨"gamma".toList, "c3".toList, "r3".toList, "o3".toList, "p3".toList⟩

def demoToolD : Tool :=
  ⟨"delta".toList, "c4".toList, "r4".toList, "o4".toList, "p4".toList⟩

def demoTools : List Tool := [demoToolA, demoToolB, demoToolC, demoToolD]

/-- A probe that finds `.gitmodules` for alpha and beta (curl exit 0) and
not for gamma and delta (curl exit 22). -/
def probeW : Tool → ProbeResult := fun t =>
  if t.module_name = "alpha".toList ∨ t.module_name = "beta".toList then
    ProbeResult.completed 0
  else ProbeResult.completed 22

/-- An integrity computation that succeeds for gamma and fails for delta. -/
def demoCalc : Tool → Except (List Char) (List Char) := fun t =>
  if t.module_name = "gamma".toList then .ok "sha256-demo".toList
  else .error "boom".toList

theorem c9_order_stable_subsequences_witness :
    (classifyTools probeW demoTools).1 =
      (demoTools.filter fun t => check_submodules (probeW t)) ∧
    (classifyTools probeW demoTools).2 =
      (demoTools.filter fun t => !check_submodules (probeW t)) ∧
    runPackageBatch demoPkg (classifyTools probeW demoTools).1 =
      ((classifyTools probeW demoTools).1.filterMap fun t => (demoPkg t).toOption) ∧
    runIntegrityBatch demoCalc (classifyTools probeW demoTools).2 =
      ((classifyTools probeW demoTools).2.filterMap fun t =>
        match demoCalc t with
        | .ok i => some ⟨t.module_name, t.owner, t.repo, t.commit, i⟩
        | .error _ => none) ∧
    (∀ t ∈ (classifyTools probeW demoTools).1, ∀ e, demoPkg t = .ok e →
      e ∈ runPackageBatch demoPkg (classifyTools probeW demoTools).1) ∧
    (∀ e ∈ runPackageBatch demoPkg (classifyTools probeW demoTools).1,
      ∃ t ∈ (classifyTools probeW demoTools).1, demoPkg t = .ok e) ∧
    (∀ t ∈ (classifyTools probeW demoTools).2, ∀ i, demoCalc t = .ok i →
      (⟨t.module_name, t.owner, t.repo, t.commit, i⟩ : IntegrityRecord) ∈
        runIntegrityBatch demoCalc (classifyTools probeW demoTools).2) ∧
    ((runPackageBatch demoPkg (classifyTools probeW demoTools).1).map
        PackageEntry.module_name).Sublist
      ((classifyTools probeW demoTools).1.map Tool.module_name) ∧
    ((runIntegrityBatch demoCalc (classifyTools probeW demoTools).2).map
        IntegrityRecord.module_name).Sublist
      ((classifyTools probeW demoTools).2.map Tool.module_name) :=
  c9_order_stable_subsequences probeW demoTools demoPkg demoCalc
    (by
      intro t e h
      simp only [demoPkg] at h
      split at h
      · cases h
      · cases h
        rfl)

/-- Concrete check that the witness batch is genuinely mixed: alpha and
beta are classified with-submodules, gamma and delta without; packaging
succeeds only for alpha and the manifest holds exactly alpha's entry;
the integrity computation succeeds only for gamma and the record list
holds exactly gamma's record. -/
theorem demo_manifests_exact :
    (classifyTools probeW demoTools).1 = [demoToolA, demoToolB] ∧
    (classifyTools probeW demoTools).2 = [demoToolC, demoToolD] ∧
    runPackageBatch demoPkg (classifyTools probeW demoTools).1 =
      [⟨"alpha".toList, "alpha".toList, [], "c1".toList, "p1".toList⟩] ∧
    runIntegrityBatch demoCalc (classifyTools probeW demoTools).2 =
      [⟨"gamma".toList, "o3".toList, "p3".toList, "c3".toList, "sha256-demo".toList⟩] := by
  refine ⟨by decide, by decide, by decide, by decide⟩

/-! ## Claim C10 -/

theorem dropLit_self : ∀ (lit s : List Char), dropLit lit (lit ++ s) = some s := by
  intro lit
  induction lit with
  | nil => intro s; rfl
  | cons a as ih => intro s; simp [dropLit, ih]

theorem searchRepo_cons_ne (ch : Char) (s : List Char) (h : ch ≠ 'g') :
    searchRepo (ch :: s) = searchRepo s := by
  have hlit : "github.com".toList = 'g' :: "ithub.com".toList := rfl
  have hmatch : matchRepoAt (ch :: s) = none := by
    rw [matchRepoAt, hlit]
    simp [dropLit, h]
  rw [searchRepo, hmatch]

theorem matchRepoAt_exact (ow rp rest : List Char)
    (how1 : ow ≠ []) (how2 : ∀ ch ∈ ow, ch ≠ '/')
    (hrp1 : rp ≠ []) (hrp2 : ∀ ch ∈ rp, ch ≠ '/' ∧ ch ≠ '.') :
    matchRepoAt ("github.com".toList ++ '/' :: (ow ++ '/' :: (rp ++ '.' :: rest))) =
      some (ow, rp) := by
  have htake : (ow ++ '/' :: (rp ++ '.' :: rest)).takeWhile (fun ch => ch != '/') = ow := by
    rw [takeWhile_all_append _ _ _ fun ch hch => by simp [how2 ch hch],
        takeWhile_cons_neg _ _ _ (by simp), List.append_nil]
  have hdrop : (ow ++ '/' :: (rp ++ '.' :: rest)).dropWhile (fun ch => ch != '/') =
      '/' :: (rp ++ '.' :: rest) := by
    rw [dropWhile_all_append _ _ _ fun ch hch => by simp [how2 ch hch],
        dropWhile_cons_neg _ _ _ (by simp)]
  have htake2 : (rp ++ '.' :: rest).takeWhile (fun ch => ch != '/' && ch != '.') = rp := by
    rw [takeWhile_all_append _ _ _ fun ch hch => by simp [(hrp2 ch hch).1, (hrp2 ch hch).2],
        takeWhile_cons_neg _ _ _ (by simp), List.append_nil]
  rw [matchRepoAt, dropLit_self]
  simp only [htake, hdrop, htake2]
  simp [how1, hrp1]

theorem searchRepo_url (ow rp rest : List Char)
    (how1 : ow ≠ []) (how2 : ∀ ch ∈ ow, ch ≠ '/')
    (hrp1 : rp ≠ []) (hrp2 : ∀ ch ∈ rp, ch ≠ '/' ∧ ch ≠ '.') :
    searchRepo ("https://github.com/".toList ++ ow ++ '/' :: (rp ++ '.' :: rest)) =
      some (ow, rp) := by
  have hshape : "https://github.com/".toList ++ ow ++ '/' :: (rp ++ '.' :: rest) =
      'h' :: 't' :: 't' :: 'p' :: 's' :: ':' :: '/' :: '/' ::
        ("github.com".toList ++ '/' :: (ow ++ '/' :: (rp ++ '.' :: rest))) := by
    simp
  rw [hshape,
      searchRepo_cons_ne _ _ (by decide), searchRepo_cons_ne _ _ (by decide),
      searchRepo_cons_ne _ _ (by decide), searchRepo_cons_ne _ _ (by decide),
      searchRepo_cons_ne _ _ (by decide), searchRepo_cons_ne _ _ (by decide),
      searchRepo_cons_ne _ _ (by decide), searchRepo_cons_ne _ _ (by decide)]
  have hhead : "github.com".toList ++ '/' :: (ow ++ '/' :: (rp ++ '.' :: rest)) =
      'g' :: ("ithub.com".toList ++ '/' :: (ow ++ '/' :: (rp ++ '.' :: rest))) := by
    simp
  rw [hhead, searchRepo, ← hhead, matchRepoAt_exact ow rp rest how1 how2 hrp1 hrp2]

/-- C10: for a remote URL whose repository path segment contains a dot,
the Scanner's URL regex captures as `repo` only the substring before the
first dot (stripping `.git`, but also truncating genuinely dotted repo
names), and that truncated name is what the downstream GitHub archive
URL is built from. -/
theorem c10_repo_truncated_at_first_dot (ow rp rest cm : List Char)
    (fetch : List Char → List Nat)
    (how1 : ow ≠ []) (how2 : ∀ ch ∈ ow, ch ≠ '/')
    (hrp1 : rp ≠ []) (hrp2 : ∀ ch ∈ rp, ch ≠ '/' ∧ ch ≠ '.') :
    searchRepo ("https://github.com/".toList ++ ow ++ '/' :: (rp ++ '.' :: rest)) =
      some (ow, rp) ∧
    (calculate_github_archive_integrity fetch ow rp cm).2 =
      [Eff.download (archiveUrl ow rp cm), Eff.unlinkTmp] :=
  ⟨searchRepo_url ow rp rest how1 how2 hrp1 hrp2, rfl⟩

theorem c10_repo_truncated_at_first_dot_witness :
    searchRepo ("https://github.com/".toList ++ "acme".toList ++
        '/' :: ("foo".toList ++ '.' :: "bar.git".toList)) =
      some ("acme".toList, "foo".toList) ∧
    (calculate_github_archive_integrity (fun _ => []) "acme".toList "foo".toList
        "abc123".toList).2 =
      [Eff.download (archiveUrl "acme".toList "foo".toList "abc123".toList), Eff.unlinkTmp] :=
  c10_repo_truncated_at_first_dot "acme".toList "foo".toList "bar.git".toList
    "abc123".toList (fun _ => []) (by decide) (by decide) (by decide) (by decide)

/-! ## Claim C2

The declaration regex hard-codes the attribute order
`module_name`, `commit`, `remote`; the counterexample below shows a valid
declaration in a different order extracting nothing.  The amended claim is
then proved: for the fixed order, with arbitrary whitespace (including
line breaks) at every `\s*` position of the pattern, the three attribute
values are extracted verbatim. -/

/-- A valid declaration with the three attributes in a different order. -/
def c2SwappedContent : List Char :=
  "git_override(commit = \"abc123\", module_name = \"foo\", remote = \"https://github.com/acme/foo.git\")\n".toList

/-- C2 counterexample: the swapped-order declaration carries all three
attributes yet the Scanner extracts no DependencyRef from it (the claim
requires exactly one, regardless of order). -/
theorem c2_counterexample :
    parseGitOverrides c2SwappedContent = [] ∧
    (parseGitOverrides c2SwappedContent).length ≠ 1 := by
  constructor
  · decide
  · decide

theorem seekLast_append_some {α : Type} (p : List Char → Option α) (a b : List Char)
    (v : α) (ha : ∀ ch ∈ a, ch ≠ ')') (hb : seekLast p b = some v) :
    seekLast p (a ++ b) = some v := by
  induction a with
  | nil => simpa using hb
  | cons x xs ih =>
    have hx : x ≠ ')' := ha x (by simp)
    have ihx := ih fun ch hch => ha ch (by simp [hch])
    simp [seekLast, hx, ihx]

theorem seekLast_none {α : Type} (p : List Char → Option α) (s : List Char)
    (h : ∀ t, t.IsSuffix s → p t = none) : seekLast p s = none := by
  induction s with
  | nil => simpa [seekLast] using h [] (List.suffix_refl [])
  | cons x xs ih =>
    have hself := h (x :: xs) (List.suffix_refl _)
    by_cases hx : x = ')'
    · subst hx
      simp [seekLast, hself]
    · have hxs := ih fun t ht => h t (ht.trans (List.suffix_cons x xs))
      simp [seekLast, hx, hxs, hself]

theorem seekLast_found {α : Type} (p : List Char → Option α) (ch : Char)
    (rest : List Char) (v : α) (hch : ch ≠ ')')
    (hrest : seekLast p rest = none) (hp : p (ch :: rest) = some v) :
    seekLast p (ch :: rest) = some v := by
  simp [seekLast, hch, hrest, hp]

theorem suffix_append_cases {t a b : List Char} (h : t.IsSuffix (a ++ b)) :
    t.IsSuffix b ∨ ∃ a', a'.IsSuffix a ∧ a' ≠ [] ∧ t = a' ++ b := by
  induction a with
  | nil => left; simpa using h
  | cons x xs ih =>
    rw [List.cons_append] at h
    rcases List.suffix_cons_iff.mp h with h' | h'
    · right
      exact ⟨x :: xs, List.suffix_refl _, by simp, by simp [h']⟩
    · rcases ih h' with h'' | ⟨a', ha1, ha2, ha3⟩
      · left; exact h''
      · right; exact ⟨a', ha1.trans (List.suffix_cons x xs), ha2, ha3⟩

/-- All suffixes of `s` fail `keyValAt key`. -/
def KVFails (key s : List Char) : Prop :=
  ∀ t, t.IsSuffix s → keyValAt key t = none

theorem keyValAt_head_ne (k : Char) (ks : List Char) (x : Char) (s : List Char)
    (h : x ≠ k) : keyValAt (k :: ks) (x :: s) = none := by
  simp [keyValAt, dropLit, h]

theorem keyValAt_nil (k : Char) (ks : List Char) : keyValAt (k :: ks) [] = none := by
  simp [keyValAt, dropLit]

theorem kvfails_zone_ne (k : Char) (ks : List Char) (a b : List Char)
    (ha : ∀ ch ∈ a, ch ≠ k) (hb : KVFails (k :: ks) b) :
    KVFails (k :: ks) (a ++ b) := by
  intro t ht
  rcases suffix_append_cases ht with h | ⟨a', ha1, ha2, rfl⟩
  · exact hb t h
  · cases a' with
    | nil => exact absurd rfl ha2
    | cons y a'' => exact keyValAt_head_ne k ks y _ (ha y (ha1.subset (by simp)))

theorem safeChar_spec (ch : Char) (h : safeChar ch = true) :
    ch ≠ '"' ∧ ch ≠ ')' ∧ ch ≠ '=' ∧ isPySpace ch = false := by
  simp only [safeChar, Bool.and_eq_true, Bool.not_eq_true', beq_eq_false_iff_ne] at h
  exact ⟨h.1.1.1, h.1.1.2, h.1.2, h.2⟩

theorem isPySpace_ne (ch k : Char) (h : isPySpace ch = true) (hk : isPySpace k = false) :
    ch ≠ k := fun e => by subst e; rw [h] at hk; cases hk

theorem kvfails_zone_ws (k : Char) (ks : List Char) (w b : List Char)
    (hw : ∀ ch ∈ w, isPySpace ch = true) (hk : isPySpace k = false)
    (hb : KVFails (k :: ks) b) : KVFails (k :: ks) (w ++ b) :=
  kvfails_zone_ne k ks w b (fun ch hch => isPySpace_ne ch k (hw ch hch) hk) hb

theorem dropLit_safe_result (key : List Char) (hkq : ∀ ch ∈ key, ch ≠ '"') :
    ∀ (x b' res : List Char), (∀ ch ∈ x, safeChar ch = true) →
      dropLit key (x ++ '"' :: b') = some res →
      ∃ y, (∀ ch ∈ y, safeChar ch = true) ∧ res = y ++ '"' :: b' := by
  induction key with
  | nil =>
    intro x b' res hx h
    exact ⟨x, hx, by simpa [dropLit] using h.symm⟩
  | cons k ks ih =>
    intro x b' res hx h
    cases x with
    | nil =>
      rw [List.nil_append, dropLit, if_neg (Ne.symm (hkq k (by simp)))] at h
      cases h
    | cons ch x' =>
      rw [List.cons_append, dropLit] at h
      by_cases hck : ch = k
      · rw [if_pos hck] at h
        exact ih (fun c hc => hkq c (by simp [hc])) x' b' res
          (fun c hc => hx c (by simp [hc])) h
      · rw [if_neg hck] at h; cases h

theorem keyValAt_none_safe (key : List Char) (hkq : ∀ ch ∈ key, ch ≠ '"')
    (x b' : List Char) (hx : ∀ ch ∈ x, safeChar ch = true) :
    keyValAt key (x ++ '"' :: b') = none := by
  rw [keyValAt]
  cases hdl : dropLit key (x ++ '"' :: b') with
  | none => rfl
  | some res =>
    obtain ⟨y, hy, rfl⟩ := dropLit_safe_result key hkq x b' res hx hdl
    have hws : dropWs (y ++ '"' :: b') = y ++ '"' :: b' := by
      cases y with
      | nil =>
        rw [List.nil_append]
        exact dropWhile_cons_neg _ _ _ (by decide)
      | cons cy y' =>
        rw [List.cons_append]
        exact dropWhile_cons_neg _ _ _ (safeChar_spec cy (hy cy (by simp))).2.2.2
    show (match dropLit ['='] (dropWs (y ++ '"' :: b')) with
          | none => none
          | some s₂ => quoted (dropWs s₂)) = none
    rw [hws]
    cases y with
    | nil => simp [dropLit]
    | cons cy y' =>
      have hc : cy ≠ '=' := (safeChar_spec cy (hy cy (by simp))).2.2.1
      simp [dropLit, hc]

theorem kvfails_zone_value (k : Char) (ks : List Char) (v b' : List Char)
    (hv : ∀ ch ∈ v, safeChar ch = true) (hkq : ∀ ch ∈ (k :: ks), ch ≠ '"')
    (hb : KVFails (k :: ks) b') : KVFails (k :: ks) (v ++ '"' :: b') := by
  intro t ht
  rcases suffix_append_cases (a := v) (b := '"' :: b') ht with h | ⟨a', ha1, ha2, rfl⟩
  · rcases List.suffix_cons_iff.mp h with h' | h'
    · subst h'
      exact keyValAt_none_safe (k :: ks) hkq [] b' (by simp)
    · exact hb t h'
  · exact keyValAt_none_safe (k :: ks) hkq a' b' fun ch hch => hv ch (ha1.subset hch)

theorem kvfails_rparen (k : Char) (ks : List Char) (hk : k ≠ ')') :
    KVFails (k :: ks) [')'] := by
  intro t ht
  rcases List.suffix_cons_iff.mp ht with h | h
  · subst h; exact keyValAt_head_ne k ks ')' [] (Ne.symm hk)
  · rw [List.suffix_nil.mp h]
    exact keyValAt_nil k ks

theorem dropWs_spaces (w s : List Char) (hw : ∀ ch ∈ w, isPySpace ch = true) :
    dropWs (w ++ s) = dropWs s := by
  rw [dropWs, dropWs]
  exact dropWhile_all_append _ _ _ hw

theorem dropWs_nospace (x : Char) (s : List Char) (h : isPySpace x = false) :
    dropWs (x :: s) = x :: s :=
  dropWhile_cons_neg _ _ _ h

theorem quoted_exact (v s : List Char) (hv1 : v ≠ []) (hvq : ∀ ch ∈ v, ch ≠ '"') :
    quoted ('"' :: (v ++ '"' :: s)) = some (v, s) := by
  have ht : (v ++ '"' :: s).takeWhile (fun ch => ch != '"') = v := by
    rw [takeWhile_all_append _ _ _ (fun ch hch => by simp [hvq ch hch]),
        takeWhile_cons_neg _ _ _ (by simp), List.append_nil]
  have hd : (v ++ '"' :: s).dropWhile (fun ch => ch != '"') = '"' :: s := by
    rw [dropWhile_all_append _ _ _ (fun ch hch => by simp [hvq ch hch]),
        dropWhile_cons_neg _ _ _ (by simp)]
  show (match (v ++ '"' :: s).dropWhile (fun ch => ch != '"') with
        | '"' :: after =>
          if (v ++ '"' :: s).takeWhile (fun ch => ch != '"') = [] then none
          else some ((v ++ '"' :: s).takeWhile (fun ch => ch != '"'), after)
        | _ => none) = some (v, s)
  rw [ht, hd]
  simp [hv1]

theorem keyValAt_exact (key w w' v s : List Char)
    (hw : ∀ ch ∈ w, isPySpace ch = true) (hw' : ∀ ch ∈ w', isPySpace ch = true)
    (hv1 : v ≠ []) (hvq : ∀ ch ∈ v, ch ≠ '"') :
    keyValAt key (key ++ (w ++ '=' :: (w' ++ '"' :: (v ++ '"' :: s)))) = some (v, s) := by
  rw [keyValAt, dropLit_self]
  show (match dropLit ['='] (dropWs (w ++ '=' :: (w' ++ '"' :: (v ++ '"' :: s)))) with
        | none => none
        | some s₂ => quoted (dropWs s₂)) = some (v, s)
  rw [dropWs_spaces _ _ hw, dropWs_nospace '=' _ (by decide)]
  show (match dropLit ['='] ('=' :: (w' ++ '"' :: (v ++ '"' :: s))) with
        | none => none
        | some s₂ => quoted (dropWs s₂)) = some (v, s)
  rw [show dropLit ['='] ('=' :: (w' ++ '"' :: (v ++ '"' :: s))) =
        some (w' ++ '"' :: (v ++ '"' :: s)) from by simp [dropLit]]
  show quoted (dropWs (w' ++ '"' :: (v ++ '"' :: s))) = some (v, s)
  rw [dropWs_spaces _ _ hw', dropWs_nospace '"' _ (by decide)]
  exact quoted_exact v s hv1 hvq

theorem commitCont_none (m t : List Char) (h : keyValAt "commit".toList t = none) :
    commitCont m t = none := by
  rw [commitCont, h]

theorem remoteCont_none (m c u : List Char) (h : keyValAt "remote".toList u = none) :
    remoteCont m c u = none := by
  rw [remoteCont, h]

/-! The canonical fixed-order declaration, parametrized by the three
attribute values and by arbitrary whitespace at every `\s*` position of
the pattern (so line breaks anywhere between tokens are covered). -/

def declTail3 (w7 w8 r : List Char) : List Char :=
  w7 ++ '=' :: (w8 ++ '"' :: (r ++ '"' :: [')']))

def declRS (w7 w8 r : List Char) : List Char :=
  "remote".toList ++ declTail3 w7 w8 r

def declREST2 (wB w7 w8 r : List Char) : List Char :=
  ',' :: (wB ++ declRS w7 w8 r)

def declTail2 (w5 w6 wB w7 w8 c r : List Char) : List Char :=
  w5 ++ '=' :: (w6 ++ '"' :: (c ++ '"' :: declREST2 wB w7 w8 r))

def declCS (w5 w6 wB w7 w8 c r : List Char) : List Char :=
  "commit".toList ++ declTail2 w5 w6 wB w7 w8 c r

def declREST1 (wA w5 w6 wB w7 w8 c r : List Char) : List Char :=
  ',' :: (wA ++ declCS w5 w6 wB w7 w8 c r)

def buildDecl (w1 w2 w3 w4 wA w5 w6 wB w7 w8 m c r : List Char) : List Char :=
  "git_override".toList ++ (w1 ++ '(' :: (w2 ++ ("module_name".toList ++
    (w3 ++ '=' :: (w4 ++ '"' :: (m ++ '"' :: declREST1 wA w5 w6 wB w7 w8 c r))))))

theorem kvfails_remote (w7 w8 r : List Char)
    (hw7 : ∀ ch ∈ w7, isPySpace ch = true) (hw8 : ∀ ch ∈ w8, isPySpace ch = true)
    (hr : ∀ ch ∈ r, safeChar ch = true) :
    KVFails ('r' :: "emote".toList) ("emote".toList ++ declTail3 w7 w8 r) := by
  have hkq : ∀ ch ∈ ('r' :: "emote".toList), ch ≠ '"' := by decide
  have base : KVFails ('r' :: "emote".toList) [')'] := kvfails_rparen _ _ (by decide)
  have l1 : KVFails ('r' :: "emote".toList) (r ++ '"' :: [')']) :=
    kvfails_zone_value _ _ r [')'] hr hkq base
  have l2 : KVFails ('r' :: "emote".toList) ('"' :: (r ++ '"' :: [')'])) :=
    kvfails_zone_ne _ _ ['"'] _ (by decide) l1
  have l3 : KVFails ('r' :: "emote".toList) (w8 ++ '"' :: (r ++ '"' :: [')'])) :=
    kvfails_zone_ws _ _ w8 _ hw8 (by decide) l2
  have l4 : KVFails ('r' :: "emote".toList) ('=' :: (w8 ++ '"' :: (r ++ '"' :: [')']))) :=
    kvfails_zone_ne _ _ ['='] _ (by decide) l3
  have l5 : KVFails ('r' :: "emote".toList) (declTail3 w7 w8 r) :=
    kvfails_zone_ws _ _ w7 _ hw7 (by decide) l4
  exact kvfails_zone_ne _ _ "emote".toList _ (by decide) l5

theorem seekLast_remote_exact (m c wB w7 w8 r : List Char)
    (hwB : ∀ ch ∈ wB, isPySpace ch = true)
    (hw7 : ∀ ch ∈ w7, isPySpace ch = true) (hw8 : ∀ ch ∈ w8, isPySpace ch = true)
    (hr1 : r ≠ []) (hr : ∀ ch ∈ r, safeChar ch = true) :
    seekLast (remoteCont m c) (declREST2 wB w7 w8 r) = some ((m, c, r), [')']) := by
  have hrest : seekLast (remoteCont m c) ("emote".toList ++ declTail3 w7 w8 r) = none :=
    seekLast_none _ _ fun t ht =>
      remoteCont_none m c t (kvfails_remote w7 w8 r hw7 hw8 hr t ht)
  have hkv : keyValAt "remote".toList
      ("remote".toList ++ (w7 ++ '=' :: (w8 ++ '"' :: (r ++ '"' :: [')'])))) =
      some (r, [')']) :=
    keyValAt_exact "remote".toList w7 w8 r [')'] hw7 hw8 hr1
      fun ch hch => (safeChar_spec ch (hr ch hch)).1
  have hp : remoteCont m c ('r' :: ("emote".toList ++ declTail3 w7 w8 r)) =
      some ((m, c, r), [')']) := by
    show remoteCont m c ("remote".toList ++ declTail3 w7 w8 r) = some ((m, c, r), [')'])
    simp only [remoteCont, declTail3, hkv]
  have hfound : seekLast (remoteCont m c) (declRS w7 w8 r) = some ((m, c, r), [')']) := by
    have e : declRS w7 w8 r = 'r' :: ("emote".toList ++ declTail3 w7 w8 r) := rfl
    rw [e]
    exact seekLast_found _ 'r' _ _ (by decide) hrest hp
  have e2 : declREST2 wB w7 w8 r = (',' :: wB) ++ declRS w7 w8 r := by
    simp [declREST2]
  rw [e2]
  refine seekLast_append_some _ _ _ _ ?_ hfound
  intro ch hch
  rcases List.mem_cons.mp hch with h | h
  · subst h; decide
  · exact isPySpace_ne ch ')' (hwB ch h) (by decide)

theorem kvfails_commit (w5 w6 wB w7 w8 c r : List Char)
    (hw5 : ∀ ch ∈ w5, isPySpace ch = true) (hw6 : ∀ ch ∈ w6, isPySpace ch = true)
    (hwB : ∀ ch ∈ wB, isPySpace ch = true)
    (hw7 : ∀ ch ∈ w7, isPySpace ch = true) (hw8 : ∀ ch ∈ w8, isPySpace ch = true)
    (hc : ∀ ch ∈ c, safeChar ch = true) (hr : ∀ ch ∈ r, safeChar ch = true) :
    KVFails ('c' :: "ommit".toList) ("ommit".toList ++ declTail2 w5 w6 wB w7 w8 c r) := by
  have hkq : ∀ ch ∈ ('c' :: "ommit".toList), ch ≠ '"' := by decide
  have base : KVFails ('c' :: "ommit".toList) [')'] := kvfails_rparen _ _ (by decide)
  have l1 : KVFails ('c' :: "ommit".toList) (r ++ '"' :: [')']) :=
    kvfails_zone_value _ _ r [')'] hr hkq base
  have l2 : KVFails ('c' :: "ommit".toList) ('"' :: (r ++ '"' :: [')'])) :=
    kvfails_zone_ne _ _ ['"'] _ (by decide) l1
  have l3 : KVFails ('c' :: "ommit".toList) (w8 ++ '"' :: (r ++ '"' :: [')'])) :=
    kvfails_zone_ws _ _ w8 _ hw8 (by decide) l2
  have l4 : KVFails ('c' :: "ommit".toList) ('=' :: (w8 ++ '"' :: (r ++ '"' :: [')']))) :=
    kvfails_zone_ne _ _ ['='] _ (by decide) l3
  have l5 : KVFails ('c' :: "ommit".toList) (declTail3 w7 w8 r) :=
    kvfails_zone_ws _ _ w7 _ hw7 (by decide) l4
  have l6 : KVFails ('c' :: "ommit".toList) (declRS w7 w8 r) :=
    kvfails_zone_ne _ _ "remote".toList _ (by decide) l5
  have l7 : KVFails ('c' :: "ommit".toList) (wB ++ declRS w7 w8 r) :=
    kvfails_zone_ws _ _ wB _ hwB (by decide) l6
  have l8 : KVFails ('c' :: "ommit".toList) (declREST2 wB w7 w8 r) :=
    kvfails_zone_ne _ _ [','] _ (by decide) l7
  have l9 : KVFails ('c' :: "ommit".toList) (c ++ '"' :: declREST2 wB w7 w8 r) :=
    kvfails_zone_value _ _ c (declREST2 wB w7 w8 r) hc hkq l8
  have l10 : KVFails ('c' :: "ommit".toList) ('"' :: (c ++ '"' :: declREST2 wB w7 w8 r)) :=
    kvfails_zone_ne _ _ ['"'] _ (by decide) l9
  have l11 : KVFails ('c' :: "ommit".toList)
      (w6 ++ '"' :: (c ++ '"' :: declREST2 wB w7 w8 r)) :=
    kvfails_zone_ws _ _ w6 _ hw6 (by decide) l10
  have l12 : KVFails ('c' :: "ommit".toList)
      ('=' :: (w6 ++ '"' :: (c ++ '"' :: declREST2 wB w7 w8 r))) :=
    kvfails_zone_ne _ _ ['='] _ (by decide) l11
  have l13 : KVFails ('c' :: "ommit".toList) (declTail2 w5 w6 wB w7 w8 c r) :=
    kvfails_zone_ws _ _ w5 _ hw5 (by decide) l12
  exact kvfails_zone_ne _ _ "ommit".toList _ (by decide) l13

theorem seekLast_commit_exact (m wA w5 w6 wB w7 w8 c r : List Char)
    (hwA : ∀ ch ∈ wA, isPySpace ch = true)
    (hw5 : ∀ ch ∈ w5, isPySpace ch = true) (hw6 : ∀ ch ∈ w6, isPySpace ch = true)
    (hwB : ∀ ch ∈ wB, isPySpace ch = true)
    (hw7 : ∀ ch ∈ w7, isPySpace ch = true) (hw8 : ∀ ch ∈ w8, isPySpace ch = true)
    (hc1 : c ≠ []) (hc : ∀ ch ∈ c, safeChar ch = true)
    (hr1 : r ≠ []) (hr : ∀ ch ∈ r, safeChar ch = true) :
    seekLast (commitCont m) (declREST1 wA w5 w6 wB w7 w8 c r) =
      some ((m, c, r), [')']) := by
  have hrest : seekLast (commitCont m)
      ("ommit".toList ++ declTail2 w5 w6 wB w7 w8 c r) = none :=
    seekLast_none _ _ fun t ht =>
      commitCont_none m t (kvfails_commit w5 w6 wB w7 w8 c r hw5 hw6 hwB hw7 hw8 hc hr t ht)
  have hkv : keyValAt "commit".toList
      ("commit".toList ++ (w5 ++ '=' :: (w6 ++ '"' :: (c ++ '"' :: declREST2 wB w7 w8 r)))) =
      some (c, declREST2 wB w7 w8 r) :=
    keyValAt_exact "commit".toList w5 w6 c (declREST2 wB w7 w8 r) hw5 hw6 hc1
      fun ch hch => (safeChar_spec ch (hc ch hch)).1
  have hp : commitCont m ('c' :: ("ommit".toList ++ declTail2 w5 w6 wB w7 w8 c r)) =
      some ((m, c, r), [')']) := by
    show commitCont m ("commit".toList ++ declTail2 w5 w6 wB w7 w8 c r) =
      some ((m, c, r), [')'])
    simp only [commitCont, declTail2, hkv]
    exact seekLast_remote_exact m c wB w7 w8 r hwB hw7 hw8 hr1 hr
  have hfound : seekLast (commitCont m) (declCS w5 w6 wB w7 w8 c r) =
      some ((m, c, r), [')']) := by
    have e : declCS w5 w6 wB w7 w8 c r =
        'c' :: ("ommit".toList ++ declTail2 w5 w6 wB w7 w8 c r) := rfl
    rw [e]
    exact seekLast_found _ 'c' _ _ (by decide) hrest hp
  have e2 : declREST1 wA w5 w6 wB w7 w8 c r =
      (',' :: wA) ++ declCS w5 w6 wB w7 w8 c r := by
    simp [declREST1]
  rw [e2]
  refine seekLast_append_some _ _ _ _ ?_ hfound
  intro ch hch
  rcases List.mem_cons.mp hch with h | h
  · subst h; decide
  · exact isPySpace_ne ch ')' (hwA ch h) (by decide)

theorem matchGitOverrideAt_buildDecl
    (w1 w2 w3 w4 wA w5 w6 wB w7 w8 m c r : List Char)
    (hw1 : ∀ ch ∈ w1, isPySpace ch = true) (hw2 : ∀ ch ∈ w2, isPySpace ch = true)
    (hw3 : ∀ ch ∈ w3, isPySpace ch = true) (hw4 : ∀ ch ∈ w4, isPySpace ch = true)
    (hwA : ∀ ch ∈ wA, isPySpace ch = true)
    (hw5 : ∀ ch ∈ w5, isPySpace ch = true) (hw6 : ∀ ch ∈ w6, isPySpace ch = true)
    (hwB : ∀ ch ∈ wB, isPySpace ch = true)
    (hw7 : ∀ ch ∈ w7, isPySpace ch = true) (hw8 : ∀ ch ∈ w8, isPySpace ch = true)
    (hm1 : m ≠ []) (hm : ∀ ch ∈ m, safeChar ch = true)
    (hc1 : c ≠ []) (hc : ∀ ch ∈ c, safeChar ch = true)
    (hr1 : r ≠ []) (hr : ∀ ch ∈ r, safeChar ch = true) :
    matchGitOverrideAt (buildDecl w1 w2 w3 w4 wA w5 w6 wB w7 w8 m c r) =
      some ((m, c, r), [')']) := by
  have h1 : dropWs (w1 ++ '(' :: (w2 ++ ("module_name".toList ++
      (w3 ++ '=' :: (w4 ++ '"' :: (m ++ '"' :: declREST1 wA w5 w6 wB w7 w8 c r)))))) =
      '(' :: (w2 ++ ("module_name".toList ++
        (w3 ++ '=' :: (w4 ++ '"' :: (m ++ '"' :: declREST1 wA w5 w6 wB w7 w8 c r))))) := by
    rw [dropWs_spaces _ _ hw1]
    exact dropWs_nospace '(' _ (by decide)
  have h2 : dropLit ['('] ('(' :: (w2 ++ ("module_name".toList ++
      (w3 ++ '=' :: (w4 ++ '"' :: (m ++ '"' :: declREST1 wA w5 w6 wB w7 w8 c r)))))) =
      some (w2 ++ ("module_name".toList ++
        (w3 ++ '=' :: (w4 ++ '"' :: (m ++ '"' :: declREST1 wA w5 w6 wB w7 w8 c r))))) := by
    simp [dropLit]
  have em : "module_name".toList ++
      (w3 ++ '=' :: (w4 ++ '"' :: (m ++ '"' :: declREST1 wA w5 w6 wB w7 w8 c r))) =
      'm' :: ("odule_name".toList ++
        (w3 ++ '=' :: (w4 ++ '"' :: (m ++ '"' :: declREST1 wA w5 w6 wB w7 w8 c r)))) := rfl
  have h3 : dropWs (w2 ++ ("module_name".toList ++
      (w3 ++ '=' :: (w4 ++ '"' :: (m ++ '"' :: declREST1 wA w5 w6 wB w7 w8 c r))))) =
      "module_name".toList ++
        (w3 ++ '=' :: (w4 ++ '"' :: (m ++ '"' :: declREST1 wA w5 w6 wB w7 w8 c r))) := by
    rw [dropWs_spaces _ _ hw2, em]
    exact dropWs_nospace 'm' _ (by decide)
  have h4 : keyValAt "module_name".toList ("module_name".toList ++
      (w3 ++ '=' :: (w4 ++ '"' :: (m ++ '"' :: declREST1 wA w5 w6 wB w7 w8 c r)))) =
      some (m, declREST1 wA w5 w6 wB w7 w8 c r) :=
    keyValAt_exact "module_name".toList w3 w4 m (declREST1 wA w5 w6 wB w7 w8 c r)
      hw3 hw4 hm1 fun ch hch => (safeChar_spec ch (hm ch hch)).1
  simp only [matchGitOverrideAt, buildDecl, dropLit_self, h1, h2, h3, h4]
  exact seekLast_commit_exact m wA w5 w6 wB w7 w8 c r hwA hw5 hw6 hwB hw7 hw8 hc1 hc hr1 hr

theorem findAllGitOverrides_rparen (fuel : Nat) :
    findAllGitOverrides fuel [')'] = [] := by
  cases fuel with
  | zero => rfl
  | succ n =>
    have h : matchGitOverrideAt [')'] = none := by decide
    rw [findAllGitOverrides, h]
    cases n <;> rfl

theorem findAllTriples_single (s : List Char) (t : List Char × List Char × List Char)
    (hs : s ≠ []) (h : matchGitOverrideAt s = some (t, [')'])) :
    findAllTriples s = [t] := by
  cases s with
  | nil => exact absurd rfl hs
  | cons ch rest =>
    rw [findAllTriples, List.length_cons, findAllGitOverrides, h]
    show t :: findAllGitOverrides rest.length [')'] = [t]
    rw [findAllGitOverrides_rparen]

/-- A GitHub https remote whose repository path segment ends in `.git`. -/
def remoteUrl (ow rp : List Char) : List Char :=
  "https://github.com/".toList ++ ow ++ '/' :: (rp ++ ".git".toList)

theorem remoteUrl_safe (ow rp : List Char)
    (how : ∀ ch ∈ ow, safeChar ch = true) (hrp : ∀ ch ∈ rp, safeChar ch = true) :
    ∀ ch ∈ remoteUrl ow rp, safeChar ch = true := by
  have hlit : ∀ x ∈ "https://github.com/".toList, safeChar x = true := by decide
  have hgit : ∀ x ∈ ".git".toList, safeChar x = true := by decide
  intro ch hch
  rw [remoteUrl] at hch
  rcases List.mem_append.mp hch with h | h
  · rcases List.mem_append.mp h with h' | h'
    · exact hlit ch h'
    · exact how ch h'
  · rcases List.mem_cons.mp h with h' | h'
    · subst h'; decide
    · rcases List.mem_append.mp h' with h'' | h''
      · exact hrp ch h''
      · exact hgit ch h''

/-- C2 amended: for a declaration carrying the three attributes in the
fixed order `module_name`, `commit`, `remote` — with arbitrary whitespace,
including line breaks, at every position the pattern allows — the Scanner
extracts exactly one DependencyRef whose module name, commit and remote
are the declaration's values verbatim (attribute order is NOT arbitrary:
see the counterexample). -/
theorem c2_amended_fixed_order_extraction
    (w1 w2 w3 w4 wA w5 w6 wB w7 w8 m c ow rp : List Char)
    (hw1 : ∀ ch ∈ w1, isPySpace ch = true) (hw2 : ∀ ch ∈ w2, isPySpace ch = true)
    (hw3 : ∀ ch ∈ w3, isPySpace ch = true) (hw4 : ∀ ch ∈ w4, isPySpace ch = true)
    (hwA : ∀ ch ∈ wA, isPySpace ch = true)
    (hw5 : ∀ ch ∈ w5, isPySpace ch = true) (hw6 : ∀ ch ∈ w6, isPySpace ch = true)
    (hwB : ∀ ch ∈ wB, isPySpace ch = true)
    (hw7 : ∀ ch ∈ w7, isPySpace ch = true) (hw8 : ∀ ch ∈ w8, isPySpace ch = true)
    (hm1 : m ≠ []) (hm : ∀ ch ∈ m, safeChar ch = true)
    (hc1 : c ≠ []) (hc : ∀ ch ∈ c, safeChar ch = true)
    (how1 : ow ≠ []) (how : ∀ ch ∈ ow, safeChar ch = true ∧ ch ≠ '/')
    (hrp1 : rp ≠ []) (hrp : ∀ ch ∈ rp, safeChar ch = true ∧ ch ≠ '/' ∧ ch ≠ '.') :
    parseGitOverrides
        (buildDecl w1 w2 w3 w4 wA w5 w6 wB w7 w8 m c (remoteUrl ow rp)) =
      [⟨m, c, remoteUrl ow rp, ow, rp⟩] := by
  have hr : ∀ ch ∈ remoteUrl ow rp, safeChar ch = true :=
    remoteUrl_safe ow rp (fun ch hch => (how ch hch).1) fun ch hch => (hrp ch hch).1
  have hr1 : remoteUrl ow rp ≠ [] := by simp [remoteUrl]
  have hmatch := matchGitOverrideAt_buildDecl w1 w2 w3 w4 wA w5 w6 wB w7 w8 m c
    (remoteUrl ow rp) hw1 hw2 hw3 hw4 hwA hw5 hw6 hwB hw7 hw8 hm1 hm hc1 hc hr1 hr
  have hne : buildDecl w1 w2 w3 w4 wA w5 w6 wB w7 w8 m c (remoteUrl ow rp) ≠ [] := by
    simp [buildDecl]
  have hfat := findAllTriples_single _ _ hne hmatch
  have hsearch : searchRepo (remoteUrl ow rp) = some (ow, rp) := by
    have e : remoteUrl ow rp =
        "https://github.com/".toList ++ ow ++ '/' :: (rp ++ '.' :: "git".toList) := by
      simp [remoteUrl]
    rw [e]
    exact searchRepo_url ow rp "git".toList how1 (fun ch hch => (how ch hch).2) hrp1
      fun ch hch => ⟨(hrp ch hch).2.1, (hrp ch hch).2.2⟩
  rw [parseGitOverrides, hfat]
  simp [hsearch]

theorem c2_amended_fixed_order_extraction_witness :
    parseGitOverrides
        (buildDecl [] ['\n', ' '] [' '] [' '] ['\n', ' '] [' '] [' '] ['\n', ' ']
          [' '] [' '] "foo".toList "abc123".toList
          (remoteUrl "acme".toList "foo".toList)) =
      [⟨"foo".toList, "abc123".toList, remoteUrl "acme".toList "foo".toList,
        "acme".toList, "foo".toList⟩] :=
  c2_amended_fixed_order_extraction [] ['\n', ' '] [' '] [' '] ['\n', ' '] [' '] [' ']
    ['\n', ' '] [' '] [' '] "foo".toList "abc123".toList "acme".toList "foo".toList
    (by decide) (by decide) (by decide) (by decide) (by decide) (by decide) (by decide)
    (by decide) (by decide) (by decide) (by decide) (by decide) (by decide) (by decide)
    (by decide) (by decide) (by decide) (by decide)
